import Mathlib

/-!
Verification of the `gitree` directory-tree conformance checker (src/gitree.c).

The development shallowly embeds the walker of `gitree.c` (the V2 program):

* a directory listing is a `List Ent`, one `Ent` per `readdir` entry, carrying
  the entry basename and its `d_type` tag (directory / regular file /
  `DT_UNKNOWN` / any other type such as a symlink or FIFO); a directory entry
  carries its own listing, or is `dirU` when `opendir` on it would fail;
* the observable behaviour (the `printf` stream and the four global counters)
  is a state `St` threaded through the functions exactly as the C globals and
  stdout are;
* fatal `exit` calls become `Except.error` values carrying the exit code.

`gitree`, `check_gitree`, `in_exception_list`, `git_files`, `exception_list`
are translated line by line from `src/gitree.c`; the recursion is realised by
a fuel-indexed function `gitreeF` (structural in the fuel) applied to a fuel
that is a structural depth measure of the tree, so every definition is
executable and kernel-reducible, and fuel irrelevance is proved below.
-/

namespace Gitree

/-- One warning/output line of the program, one constructor per `printf` in
`src/gitree.c`: the "Checking" banner and the four warning categories. -/
inductive Line : Type where
  | checking (path : String) : Line
  | layout (path : String) (name : String) : Line
  | badName (path : String) : Line
  | nonBare (path : String) : Line
  | stray (path : String) (name : String) : Line
  deriving Repr, DecidableEq

/-- The observable program state: the four global counters
`sum_break_layout_rule`, `sum_dir_name_not_with_git`, `sum_non_bare_git`,
`sum_not_in_git` of `gitree.c`, and the stdout lines emitted so far. -/
structure St : Type where
  nLayout : Nat
  nBadName : Nat
  nNonBare : Nat
  nStray : Nat
  out : List Line
  deriving Repr, DecidableEq

/-- The initial state: all counters zero, nothing printed. -/
def st0 : St := ⟨0, 0, 0, 0, []⟩

/-- Fatal conditions of the walker, one per `exit` call:
`opendir` failure (`exit(-1)`), the `SUBDIRNO`/`SUBFILENO` capacity guards
(`exit(-1)`), and a `DT_UNKNOWN` entry (`exit(-2)`). -/
inductive GErr : Type where
  | openFail : GErr
  | maxDir : GErr
  | maxFile : GErr
  | unknownType : GErr
  deriving Repr, DecidableEq

/-- The process exit status each fatal condition produces in `gitree.c`. -/
def exitCode : GErr → Int
  | .openFail => -1
  | .maxDir => -1
  | .maxFile => -1
  | .unknownType => -2

/-- A directory entry as reported by `readdir`: its basename and `d_type`.
`dir` is a `DT_DIR` entry whose own listing is `contents`; `dirU` is a
`DT_DIR` entry on which `opendir` would fail; `reg` is `DT_REG`; `unk` is
`DT_UNKNOWN`; `oth` is any other type (symlink, FIFO, socket, ...). -/
inductive Ent : Type where
  | dir (name : String) (contents : List Ent) : Ent
  | dirU (name : String) : Ent
  | reg (name : String) : Ent
  | unk (name : String) : Ent
  | oth (name : String) : Ent
  deriving Repr

/-- The basename (`d_name`) of an entry. -/
def entName : Ent → String
  | .dir n _ => n
  | .dirU n => n
  | .reg n => n
  | .unk n => n
  | .oth n => n

/-- Whether the entry's `d_type` is `DT_DIR`. -/
def isDirT : Ent → Bool
  | .dir _ _ => true
  | .dirU _ => true
  | _ => false

/-- Whether the entry's `d_type` is `DT_REG`. -/
def isRegT : Ent → Bool
  | .reg _ => true
  | _ => false

/-- The `.`/`..` pseudo-entry test that opens both `readdir` loops of
`gitree.c` (`!strcmp(d_name, ".")`, `!strcmp(d_name, "..")`). -/
def skipName (n : String) : Bool := n == "." || n == ".."

mutual

/-- Structural depth of one entry (1 + depth of its listing for an openable
directory). Used only as recursion fuel for the walker. -/
def entDepth : Ent → Nat
  | .dir _ l => 1 + listDepth l
  | _ => 1

/-- Structural depth of a listing: the maximum depth of its entries. -/
def listDepth : List Ent → Nat
  | [] => 0
  | e :: r => max (entDepth e) (listDepth r)

end

/-- The `git_files` table of `src/gitree.c`, verbatim and in order. -/
def git_files : List String :=
  ["COMMIT_EDITMSG", "config", "description", "FETCH_HEAD", "HEAD",
   "index", "packed-refs", "ORIG_HEAD", "MERGE_HEAD", "MERGE_MODE",
   "MERGE_MSG", "MERGE_RR", "RENAMED-REF", "gitk.cache",
   "hooks", "info", "logs", "objects", "rebase-apply", "refs",
   "branches", "remotes", "shallow", "rr-cache",
   "cloneurl",
   ".repopickle_config", "clone.bundle",
   "config.bak", "config_bak", "config~", "description~", "hooks_bk",
   "hooks.bak", "hooks-bak", "COMMIT_EDITMSG~", ".gitignore", "pnt",
   "svn", "temp.patch"]

/-- The `exception_list` table of `src/gitree.c`. -/
def exception_list : List String := ["/git/android/.repo"]

/-- The `in_exception_list` function of `gitree.c`: a linear scan testing, via
`strncmp(dirname, exception_list[i], strlen(exception_list[i]))`, whether
some exception entry is a prefix of `dirname`. -/
def in_exception_list (dirname : String) : Bool :=
  exception_list.any (fun e => e.data.isPrefixOf dirname.data)

/-- The `strrchr(dirname, '/')` computation of `check_gitree`: the final
path component (everything after the last slash; the whole string when no
slash occurs, the empty string after a trailing slash). -/
def lastDir (s : String) : String :=
  String.mk (s.data.foldl (fun acc c => if c = '/' then [] else acc ++ [c]) [])

/-- Whether `s` ends with suffix `t`, character-exact (the model of
`!strncmp(last_dir + dir_len - 4, ".git", 4)`). -/
def strEndsWith (s t : String) : Bool := t.data.isSuffixOf s.data

/-- The `dir_name_with_git` flag of `check_gitree`:
`(dir_len >= 4) && !strncmp(last_dir + dir_len - 4, ".git", 4)`. -/
def dirNameWithGit (last : String) : Bool :=
  decide (4 ≤ last.length) && strEndsWith last ".git"

/-- The `printf("Checking %s\n", dirname)` call. -/
def pushChecking (d : String) (st : St) : St :=
  { st with out := st.out ++ [Line.checking d] }

/-- The `sum_break_layout_rule++` increment together with its `printf`. -/
def pushLayout (d n : String) (st : St) : St :=
  { st with nLayout := st.nLayout + 1, out := st.out ++ [Line.layout d n] }

/-- The `sum_dir_name_not_with_git++` increment together with its `printf`. -/
def pushBadName (d : String) (st : St) : St :=
  { st with nBadName := st.nBadName + 1, out := st.out ++ [Line.badName d] }

/-- The `sum_non_bare_git++` increment together with its `printf`. -/
def pushNonBare (d : String) (st : St) : St :=
  { st with nNonBare := st.nNonBare + 1, out := st.out ++ [Line.nonBare d] }

/-- The `sum_not_in_git++` increment together with its `printf`. -/
def pushStray (d n : String) (st : St) : St :=
  { st with nStray := st.nStray + 1, out := st.out ++ [Line.stray d n] }

/-- The `readdir` loop of `check_gitree` (lines 160-176): for every entry
other than `.`/`..`, a linear scan of `git_files`; an entry whose name is
not in the table yields one layout warning and one counter increment. The
entry's type is never consulted. -/
def layoutPass (d : String) : List Ent → St → St
  | [], st => st
  | e :: rest, st =>
    if skipName (entName e) then layoutPass d rest st
    else if git_files.contains (entName e) then layoutPass d rest st
    else layoutPass d rest (pushLayout d (entName e) st)

/-- The `check_gitree` function of `gitree.c` (lines 122-179): the naming/bareness
classification of `dirname`'s basename followed by the layout pass over the
directory's entries. (In the C code the function re-opens `dirname`; here
the listing `l` is passed in, the walker having just read it.) -/
def check_gitree (dirname : String) (l : List Ent) (st : St) : St :=
  let last := lastDir dirname
  let wg := dirNameWithGit last
  let st1 :=
    if wg && (last.length == 4) then
      if in_exception_list dirname then st else pushNonBare dirname st
    else st
  let st2 := if !wg then pushBadName dirname st1 else st1
  layoutPass dirname l st2

/-- The `subfile` loop of `gitree` (lines 259-266): for every collected
regular-file name, one stray warning and one counter increment unless the
directory path is in the exception list (tested each iteration, as in C). -/
def emitStrays (d : String) : List String → St → St
  | [], st => st
  | f :: rest, st =>
    emitStrays d rest (if in_exception_list d then st else pushStray d f st)

/-- The scan accumulator of `gitree`'s `readdir` loop: the collected
subdirectory names (`subdir`), the collected regular-file names (`subfile`),
and the `has_dir_objects` / `has_dir_refs` / `has_file_HEAD` flags. -/
structure ScanAcc : Type where
  dirs : List String
  files : List String
  hasObjects : Bool
  hasRefs : Bool
  hasHEAD : Bool
  deriving Repr, DecidableEq

/-- The accumulator at the top of the loop: empty buffers, flags clear. -/
def emptyAcc : ScanAcc := ⟨[], [], false, false, false⟩

/-- The `readdir` loop of `gitree` (lines 205-245): skip `.`/`..`; a
`DT_DIR` entry sets the marker flags when named `objects`/`refs`, is
appended to `subdir`, and trips the `SUBDIRNO` guard (`exit(-1)`) when the
count reaches 4096; a `DT_REG` entry sets the `HEAD` flag, is appended to
`subfile`, with the symmetric `SUBFILENO` guard; `DT_UNKNOWN` is fatal
(`exit(-2)`); any other type falls through the `if`/`else if` chain. -/
def scanLoop : List Ent → ScanAcc → Except GErr ScanAcc
  | [], a => .ok a
  | e :: rest, a =>
    if skipName (entName e) then scanLoop rest a
    else
      match e with
      | .dir n _ =>
        let a1 : ScanAcc :=
          { a with hasObjects := a.hasObjects || n == "objects",
                   hasRefs := a.hasRefs || n == "refs",
                   dirs := a.dirs ++ [n] }
        if 4096 ≤ a1.dirs.length then .error .maxDir else scanLoop rest a1
      | .dirU n =>
        let a1 : ScanAcc :=
          { a with hasObjects := a.hasObjects || n == "objects",
                   hasRefs := a.hasRefs || n == "refs",
                   dirs := a.dirs ++ [n] }
        if 4096 ≤ a1.dirs.length then .error .maxDir else scanLoop rest a1
      | .reg n =>
        let a1 : ScanAcc :=
          { a with hasHEAD := a.hasHEAD || n == "HEAD",
                   files := a.files ++ [n] }
        if 4096 ≤ a1.files.length then .error .maxFile else scanLoop rest a1
      | .unk _ => .error .unknownType
      | .oth _ => scanLoop rest a

/-- The `subdir` loop of `gitree` (lines 267-270), parametrised by the
function `g` recursively invoked on each subdirectory: the collected
directory entries are visited in listing order, each via
`g (dirname ++ "/" ++ name)`; an unopenable subdirectory makes the
recursive visit fail with `opendir`'s fatal error. -/
def walkF (g : String → Option (List Ent) → St → Except GErr St)
    (d : String) : List Ent → St → Except GErr St
  | [], st => .ok st
  | e :: rest, st =>
    if skipName (entName e) then walkF g d rest st
    else
      match e with
      | .dir n c =>
        match g (d ++ "/" ++ n) (some c) st with
        | .error er => .error er
        | .ok st2 => walkF g d rest st2
      | .dirU n => g (d ++ "/" ++ n) none st
      | _ => walkF g d rest st

/-- Fuel-indexed `gitree` (lines 181-272 of `gitree.c`), structural in the
fuel. `none` is a directory `opendir` cannot open (`exit(-1)`). Otherwise:
print the `Checking` banner, run the `readdir` scan, and either — when
`has_dir_objects && has_dir_refs && has_file_HEAD` — run `check_gitree` on
this directory and return without recursing, or emit the stray-file
warnings and recurse into every collected subdirectory. Fuel `0` (never
reached from `gitree`, see `gitreeF_fuel`) returns `opendir`'s error. -/
def gitreeF : Nat → String → Option (List Ent) → St → Except GErr St
  | 0, _, _, _ => .error .openFail
  | _ + 1, _, none, _ => .error .openFail
  | n + 1, d, some l, st =>
    match scanLoop l emptyAcc with
    | .error e => .error e
    | .ok a =>
      if a.hasObjects && a.hasRefs && a.hasHEAD then
        .ok (check_gitree d l (pushChecking d st))
      else
        walkF (gitreeF n) d l (emitStrays d a.files (pushChecking d st))

/-- The walker `gitree(dirname)` of `gitree.c`, on a directory whose
listing is `c` (`none` when `opendir` fails): the fuel-indexed walker with
enough fuel for the whole tree. -/
def gitree (d : String) (c : Option (List Ent)) : St → Except GErr St :=
  match c with
  | none => gitreeF 1 d none
  | some l => gitreeF (listDepth l + 1) d (some l)

/-- The `main` contract of `gitree.c` restricted to the walk itself: the
exit status of a run over the tree rooted at `d` — `0` when the walk
completes (main `return 0`), the fatal condition's code otherwise. -/
def runGitree (d : String) (c : Option (List Ent)) : Int :=
  match gitree d c st0 with
  | .ok _ => 0
  | .error e => exitCode e

/-- Whether an outcome is a fatal abort. -/
def isErr {α : Type} : Except GErr α → Bool
  | .error _ => true
  | .ok _ => false

/-! Derived, name-level views of a listing, used to state the claims. -/

/-- Whether the listing has a `DT_DIR` child named `s`. -/
def hasDirNamed (l : List Ent) (s : String) : Bool :=
  l.any (fun e => isDirT e && entName e == s)

/-- Whether the listing has a `DT_REG` child named `s`. -/
def hasRegNamed (l : List Ent) (s : String) : Bool :=
  l.any (fun e => isRegT e && entName e == s)

/-- The content signature `gitree.c` line 252 tests: directory children
`objects` and `refs` and a regular-file child `HEAD`. -/
def isGitRoot (l : List Ent) : Bool :=
  hasDirNamed l "objects" && hasDirNamed l "refs" && hasRegNamed l "HEAD"

/-- Names of the `DT_DIR` children the scan collects, in listing order. -/
def dirNames (l : List Ent) : List String :=
  (l.filter (fun e => !skipName (entName e) && isDirT e)).map entName

/-- Names of the `DT_REG` children the scan collects, in listing order. -/
def regNames (l : List Ent) : List String :=
  (l.filter (fun e => !skipName (entName e) && isRegT e)).map entName

/-- Names of the entries the layout pass warns about: every non-pseudo
entry, of any type, whose name is absent from `git_files`. -/
def layoutBad (l : List Ent) : List String :=
  (l.filter (fun e => !skipName (entName e) && !git_files.contains (entName e))).map
    entName

/-! Line-category recognisers. -/

/-- Whether a line is the `Checking` banner. -/
def isCheckingLine : Line → Bool
  | .checking _ => true
  | _ => false

/-- Whether a line is a layout-violation warning. -/
def isLayoutLine : Line → Bool
  | .layout _ _ => true
  | _ => false

/-- Whether a line is a bad-name-suffix warning. -/
def isBadNameLine : Line → Bool
  | .badName _ => true
  | _ => false

/-- Whether a line is a non-bare-layout warning. -/
def isNonBareLine : Line → Bool
  | .nonBare _ => true
  | _ => false

/-- Whether a line is a stray-file warning. -/
def isStrayLine : Line → Bool
  | .stray _ _ => true
  | _ => false

/-- Whether a line is a naming warning (bad-name-suffix or non-bare). -/
def isNamingLine : Line → Bool
  | .badName _ => true
  | .nonBare _ => true
  | _ => false

/-- Whether a line is a stray-file warning attributed to directory `d`. -/
def isStrayAt (d : String) : Line → Bool
  | .stray p _ => p == d
  | _ => false

/-- Pointwise sum of two states: counters add, outputs concatenate. The
effect of any program fragment is `app`ending a delta to the entry state. -/
def app (a b : St) : St :=
  ⟨a.nLayout + b.nLayout, a.nBadName + b.nBadName, a.nNonBare + b.nNonBare,
   a.nStray + b.nStray, a.out ++ b.out⟩

/-- The state delta of the naming/bareness step of `check_gitree`. -/
def checkNamingDelta (d : String) : St :=
  if dirNameWithGit (lastDir d) then
    if (lastDir d).length == 4 then
      if in_exception_list d then st0 else ⟨0, 0, 1, 0, [Line.nonBare d]⟩
    else st0
  else ⟨0, 1, 0, 0, [Line.badName d]⟩

/-- Each counter equals the number of emitted lines of its category. -/
def countersOK (st : St) : Prop :=
  st.nLayout = st.out.countP isLayoutLine ∧
  st.nBadName = st.out.countP isBadNameLine ∧
  st.nNonBare = st.out.countP isNonBareLine ∧
  st.nStray = st.out.countP isStrayLine

/-- The first naming outcome of `check_gitree`: basename ends with `.git`
and has exactly the suffix's length (the in-place, non-bare convention). -/
def gitNameA (d : String) : Bool :=
  dirNameWithGit (lastDir d) && ((lastDir d).length == 4)

/-- The second naming outcome: basename does not end with `.git` at all. -/
def gitNameB (d : String) : Bool := !dirNameWithGit (lastDir d)

/-- The third naming outcome: basename properly extends the `.git` suffix. -/
def gitNameExt (d : String) : Bool :=
  dirNameWithGit (lastDir d) && !((lastDir d).length == 4)

end Gitree

namespace Gitree

/-! ### The frame property: every fragment's effect is a pure delta -/

theorem app_st0_right (a : St) : app a st0 = a := by
  cases a; simp [app, st0]

theorem app_assoc (a b c : St) : app (app a b) c = app a (app b c) := by
  cases a; cases b; cases c; simp [app, Nat.add_assoc]

theorem pushChecking_app (d : String) (a b : St) :
    pushChecking d (app a b) = app a (pushChecking d b) := by
  cases a; cases b; simp [pushChecking, app]

theorem pushLayout_app (d n : String) (a b : St) :
    pushLayout d n (app a b) = app a (pushLayout d n b) := by
  cases a; cases b; simp [pushLayout, app, Nat.add_assoc]

theorem pushBadName_app (d : String) (a b : St) :
    pushBadName d (app a b) = app a (pushBadName d b) := by
  cases a; cases b; simp [pushBadName, app, Nat.add_assoc]

theorem pushNonBare_app (d : String) (a b : St) :
    pushNonBare d (app a b) = app a (pushNonBare d b) := by
  cases a; cases b; simp [pushNonBare, app, Nat.add_assoc]

theorem pushStray_app (d n : String) (a b : St) :
    pushStray d n (app a b) = app a (pushStray d n b) := by
  cases a; cases b; simp [pushStray, app, Nat.add_assoc]

theorem emitStrays_app (d : String) (fs : List String) (a b : St) :
    emitStrays d fs (app a b) = app a (emitStrays d fs b) := by
  induction fs generalizing b with
  | nil => rfl
  | cons f rest ih =>
    cases he : in_exception_list d <;>
      simp [emitStrays, he, pushStray_app, ih]

theorem layoutPass_app (d : String) (l : List Ent) (a b : St) :
    layoutPass d l (app a b) = app a (layoutPass d l b) := by
  induction l generalizing b with
  | nil => rfl
  | cons e rest ih =>
    simp only [layoutPass]
    split
    · exact ih b
    · split
      · exact ih b
      · rw [pushLayout_app]; exact ih _

theorem check_gitree_app (d : String) (l : List Ent) (a b : St) :
    check_gitree d l (app a b) = app a (check_gitree d l b) := by
  unfold check_gitree
  cases hw : dirNameWithGit (lastDir d) <;>
    cases hl : (lastDir d).length == 4 <;>
      cases he : in_exception_list d <;>
        simp [hw, hl, he, layoutPass_app, pushBadName_app, pushNonBare_app,
          pushChecking_app]

theorem walkF_app (g : String → Option (List Ent) → St → Except GErr St)
    (hg : ∀ p c x y, g p c (app x y) = (g p c y).map (app x))
    (d : String) (l : List Ent) (a b : St) :
    walkF g d l (app a b) = (walkF g d l b).map (app a) := by
  induction l generalizing b with
  | nil => rfl
  | cons e rest ih =>
    cases hs : skipName (entName e)
    · cases e with
      | dir n c =>
        simp only [walkF, hs, Bool.false_eq_true, if_false]
        rw [hg]
        cases hb : g (d ++ "/" ++ n) (some c) b <;> simp [Except.map, ih]
      | dirU n => simp [walkF, hs, hg]
      | reg n => simp [walkF, hs, ih]
      | unk n => simp [walkF, hs, ih]
      | oth n => simp [walkF, hs, ih]
    · simp [walkF, hs, ih]

theorem gitreeF_app (n : Nat) (d : String) (c : Option (List Ent)) (a b : St) :
    gitreeF n d c (app a b) = (gitreeF n d c b).map (app a) := by
  induction n generalizing d c a b with
  | zero => rfl
  | succ n ih =>
    cases c with
    | none => rfl
    | some l =>
      simp only [gitreeF]
      cases hs : scanLoop l emptyAcc with
      | error e => rfl
      | ok acc =>
        cases hr : (acc.hasObjects && acc.hasRefs && acc.hasHEAD)
        · simp only [hr, Bool.false_eq_true, if_false]
          rw [pushChecking_app, emitStrays_app]
          exact walkF_app (gitreeF n) (fun p c x y => ih p c x y) d l a
            (emitStrays d acc.files (pushChecking d b))
        · simp only [hr, if_true, pushChecking_app, check_gitree_app, Except.map]

theorem gitree_app (d : String) (c : Option (List Ent)) (a b : St) :
    gitree d c (app a b) = (gitree d c b).map (app a) := by
  cases c with
  | none => rfl
  | some l => exact gitreeF_app (listDepth l + 1) d (some l) a b

/-! ### Fuel irrelevance and the one-step unfolding of the walker -/

theorem gitree_none (d : String) (st : St) : gitree d none st = .error .openFail := rfl

theorem gitreeF_none (k : Nat) (d : String) (st : St) :
    gitreeF k d none st = .error .openFail := by
  cases k <;> rfl

theorem entDepth_le_of_mem {e : Ent} {l : List Ent} (h : e ∈ l) :
    entDepth e ≤ listDepth l := by
  induction l with
  | nil => cases h
  | cons x r ih =>
    rcases List.mem_cons.1 h with h1 | h1
    · subst h1; simp [listDepth]
    · exact le_trans (ih h1) (by simp [listDepth])

theorem walkF_congr (g1 g2 : String → Option (List Ent) → St → Except GErr St)
    (d : String) (l : List Ent)
    (h1 : ∀ n c, Ent.dir n c ∈ l →
      ∀ st2, g1 (d ++ "/" ++ n) (some c) st2 = g2 (d ++ "/" ++ n) (some c) st2)
    (h2 : ∀ n, Ent.dirU n ∈ l →
      ∀ st2, g1 (d ++ "/" ++ n) none st2 = g2 (d ++ "/" ++ n) none st2)
    (st : St) : walkF g1 d l st = walkF g2 d l st := by
  induction l generalizing st with
  | nil => rfl
  | cons e rest ih =>
    have ih' := fun st2 => ih
      (fun n c hm => h1 n c (List.mem_cons_of_mem _ hm))
      (fun n hm => h2 n (List.mem_cons_of_mem _ hm)) st2
    cases hs : skipName (entName e)
    · cases e with
      | dir n c =>
        simp only [walkF, hs, Bool.false_eq_true, if_false]
        rw [h1 n c (List.mem_cons_self _ _)]
        cases g2 (d ++ "/" ++ n) (some c) st <;> simp [ih']
      | dirU n =>
        simp only [walkF, hs, Bool.false_eq_true, if_false]
        exact h2 n (List.mem_cons_self _ _) st
      | reg n => simp [walkF, hs, ih']
      | unk n => simp [walkF, hs, ih']
      | oth n => simp [walkF, hs, ih']
    · simp [walkF, hs, ih']

theorem gitreeF_fuel : ∀ (n m : Nat) (d : String) (l : List Ent) (st : St),
    listDepth l < n → listDepth l < m →
    gitreeF n d (some l) st = gitreeF m d (some l) st := by
  intro n
  induction n with
  | zero => intro m d l st h; omega
  | succ n ih =>
    intro m d l st hn hm
    cases m with
    | zero => omega
    | succ m =>
      simp only [gitreeF]
      cases hs : scanLoop l emptyAcc with
      | error e => rfl
      | ok acc =>
        cases hr : (acc.hasObjects && acc.hasRefs && acc.hasHEAD)
        · simp only [hr, Bool.false_eq_true, if_false]
          refine walkF_congr _ _ d l ?_ ?_ _
          · intro nm c hmem st2
            have hd : 1 + listDepth c ≤ listDepth l := by
              have := entDepth_le_of_mem hmem
              simpa [entDepth] using this
            exact ih m (d ++ "/" ++ nm) c st2 (by omega) (by omega)
          · intro nm _ st2
            rw [gitreeF_none, gitreeF_none]
        · simp only [hr, if_true]

theorem gitree_some (d : String) (l : List Ent) (st : St) :
    gitree d (some l) st = gitreeF (listDepth l + 1) d (some l) st := rfl

theorem gitree_eq (d : String) (l : List Ent) (st : St) :
    gitree d (some l) st =
      match scanLoop l emptyAcc with
      | .error e => .error e
      | .ok a =>
        if a.hasObjects && a.hasRefs && a.hasHEAD then
          .ok (check_gitree d l (pushChecking d st))
        else walkF gitree d l (emitStrays d a.files (pushChecking d st)) := by
  rw [gitree_some]
  simp only [gitreeF]
  cases hs : scanLoop l emptyAcc with
  | error e => rfl
  | ok acc =>
    cases hr : (acc.hasObjects && acc.hasRefs && acc.hasHEAD)
    · simp only [hr, Bool.false_eq_true, if_false]
      refine walkF_congr _ _ d l ?_ ?_ _
      · intro nm c hmem st2
        have hd : 1 + listDepth c ≤ listDepth l := by
          have := entDepth_le_of_mem hmem
          simpa [entDepth] using this
        rw [gitree_some]
        exact gitreeF_fuel _ _ _ c st2 (by omega) (by omega)
      · intro nm _ st2
        rw [gitreeF_none, gitree_none]
    · simp only [hr, if_true]

end Gitree

namespace Gitree

/-! ### The scan: what the readdir loop of `gitree` collects -/

theorem name_of_skip {n : String} (h : skipName n = true) : n = "." ∨ n = ".." := by
  simpa [skipName] using h

theorem dirNames_cons_skip {e : Ent} {l : List Ent} (h : skipName (entName e) = true) :
    dirNames (e :: l) = dirNames l := by
  simp only [dirNames, List.filter_cons, h, Bool.not_true, Bool.false_and,
    Bool.false_eq_true, if_false]

theorem regNames_cons_skip {e : Ent} {l : List Ent} (h : skipName (entName e) = true) :
    regNames (e :: l) = regNames l := by
  simp only [regNames, List.filter_cons, h, Bool.not_true, Bool.false_and,
    Bool.false_eq_true, if_false]

theorem scanLoop_ok_spec : ∀ (l : List Ent) (a a2 : ScanAcc),
    scanLoop l a = .ok a2 →
    a2.dirs = a.dirs ++ dirNames l ∧ a2.files = a.files ++ regNames l ∧
    a2.hasObjects = (a.hasObjects || hasDirNamed l "objects") ∧
    a2.hasRefs = (a.hasRefs || hasDirNamed l "refs") ∧
    a2.hasHEAD = (a.hasHEAD || hasRegNamed l "HEAD") := by
  intro l
  induction l with
  | nil =>
    intro a a2 h
    simp only [scanLoop, Except.ok.injEq] at h
    subst h
    simp [dirNames, regNames, hasDirNamed, hasRegNamed]
  | cons e rest ih =>
    intro a a2 h
    cases hs : skipName (entName e)
    · cases e with
      | dir n c =>
        simp only [entName] at hs
        simp only [scanLoop, entName, hs, Bool.false_eq_true, if_false] at h
        split at h
        · cases h
        · obtain ⟨h1, h2, h3, h4, h5⟩ := ih _ _ h
          refine ⟨?_, ?_, ?_, ?_, ?_⟩ <;>
            simp [h1, h2, h3, h4, h5, dirNames, regNames, hasDirNamed,
              hasRegNamed, List.filter_cons, entName, isDirT, isRegT, hs,
              Bool.or_assoc]
      | dirU n =>
        simp only [entName] at hs
        simp only [scanLoop, entName, hs, Bool.false_eq_true, if_false] at h
        split at h
        · cases h
        · obtain ⟨h1, h2, h3, h4, h5⟩ := ih _ _ h
          refine ⟨?_, ?_, ?_, ?_, ?_⟩ <;>
            simp [h1, h2, h3, h4, h5, dirNames, regNames, hasDirNamed,
              hasRegNamed, List.filter_cons, entName, isDirT, isRegT, hs,
              Bool.or_assoc]
      | reg n =>
        simp only [entName] at hs
        simp only [scanLoop, entName, hs, Bool.false_eq_true, if_false] at h
        split at h
        · cases h
        · obtain ⟨h1, h2, h3, h4, h5⟩ := ih _ _ h
          refine ⟨?_, ?_, ?_, ?_, ?_⟩ <;>
            simp [h1, h2, h3, h4, h5, dirNames, regNames, hasDirNamed,
              hasRegNamed, List.filter_cons, entName, isDirT, isRegT, hs,
              Bool.or_assoc]
      | unk n =>
        simp only [entName] at hs
        simp only [scanLoop, entName, hs, Bool.false_eq_true, if_false] at h
        simp at h
      | oth n =>
        simp only [entName] at hs
        simp only [scanLoop, entName, hs, Bool.false_eq_true, if_false] at h
        obtain ⟨h1, h2, h3, h4, h5⟩ := ih _ _ h
        refine ⟨?_, ?_, ?_, ?_, ?_⟩ <;>
          simp [h1, h2, h3, h4, h5, dirNames, regNames, hasDirNamed,
            hasRegNamed, List.filter_cons, entName, isDirT, isRegT, hs]
    · simp only [scanLoop, hs, if_true] at h
      obtain ⟨h1, h2, h3, h4, h5⟩ := ih _ _ h
      have hobj : (entName e == "objects") = false := by
        rcases name_of_skip hs with h' | h' <;> rw [h'] <;> rfl
      have href : (entName e == "refs") = false := by
        rcases name_of_skip hs with h' | h' <;> rw [h'] <;> rfl
      have hhd : (entName e == "HEAD") = false := by
        rcases name_of_skip hs with h' | h' <;> rw [h'] <;> rfl
      refine ⟨?_, ?_, ?_, ?_, ?_⟩ <;>
        simp [h1, h2, h3, h4, h5, dirNames_cons_skip hs, regNames_cons_skip hs,
          hasDirNamed, hasRegNamed, hobj, href, hhd]

theorem scanLoop_ok_lt : ∀ (l : List Ent) (a a2 : ScanAcc),
    scanLoop l a = .ok a2 →
    a.dirs.length < 4096 → a.files.length < 4096 →
    a2.dirs.length < 4096 ∧ a2.files.length < 4096 := by
  intro l
  induction l with
  | nil =>
    intro a a2 h hd hf
    simp only [scanLoop, Except.ok.injEq] at h
    subst h; exact ⟨hd, hf⟩
  | cons e rest ih =>
    intro a a2 h hd hf
    cases hs : skipName (entName e)
    · cases e with
      | dir n c =>
        simp only [entName] at hs
        simp only [scanLoop, entName, hs, Bool.false_eq_true, if_false] at h
        split at h
        · cases h
        · next hlt => exact ih _ _ h (by simpa using Nat.lt_of_not_le hlt) hf
      | dirU n =>
        simp only [entName] at hs
        simp only [scanLoop, entName, hs, Bool.false_eq_true, if_false] at h
        split at h
        · cases h
        · next hlt => exact ih _ _ h (by simpa using Nat.lt_of_not_le hlt) hf
      | reg n =>
        simp only [entName] at hs
        simp only [scanLoop, entName, hs, Bool.false_eq_true, if_false] at h
        split at h
        · cases h
        · next hlt => exact ih _ _ h hd (by simpa using Nat.lt_of_not_le hlt)
      | unk n =>
        simp only [entName] at hs
        simp only [scanLoop, entName, hs, Bool.false_eq_true, if_false] at h
        simp at h
      | oth n =>
        simp only [entName] at hs
        simp only [scanLoop, entName, hs, Bool.false_eq_true, if_false] at h
        exact ih _ _ h hd hf
    · simp only [scanLoop, hs, if_true] at h
      exact ih _ _ h hd hf

theorem scanLoop_overflow : ∀ (l : List Ent) (a : ScanAcc),
    4096 ≤ a.dirs.length + (dirNames l).length → 1 ≤ (dirNames l).length →
    isErr (scanLoop l a) = true := by
  intro l
  induction l with
  | nil => intro a h1 h2; simp [dirNames] at h2
  | cons e rest ih =>
    intro a h1 h2
    cases hs : skipName (entName e)
    · cases e with
      | dir n c =>
        simp only [entName] at hs
        have hcons : dirNames (Ent.dir n c :: rest) = n :: dirNames rest := by
          simp [dirNames, List.filter_cons, entName, isDirT, hs]
        rw [hcons] at h1 h2
        simp only [scanLoop, entName, hs, Bool.false_eq_true, if_false]
        split
        · rfl
        · next hlt =>
          refine ih _ ?_ ?_ <;> simp only [List.length_append, List.length_cons,
            List.length_nil] at h1 hlt ⊢ <;> omega
      | dirU n =>
        simp only [entName] at hs
        have hcons : dirNames (Ent.dirU n :: rest) = n :: dirNames rest := by
          simp [dirNames, List.filter_cons, entName, isDirT, hs]
        rw [hcons] at h1 h2
        simp only [scanLoop, entName, hs, Bool.false_eq_true, if_false]
        split
        · rfl
        · next hlt =>
          refine ih _ ?_ ?_ <;> simp only [List.length_append, List.length_cons,
            List.length_nil] at h1 hlt ⊢ <;> omega
      | reg n =>
        simp only [entName] at hs
        have hcons : dirNames (Ent.reg n :: rest) = dirNames rest := by
          simp [dirNames, List.filter_cons, entName, isDirT]
        rw [hcons] at h1 h2
        simp only [scanLoop, entName, hs, Bool.false_eq_true, if_false]
        split
        · rfl
        · exact ih _ h1 h2
      | unk n =>
        simp only [entName] at hs
        simp [scanLoop, entName, hs, isErr]
      | oth n =>
        simp only [entName] at hs
        have hcons : dirNames (Ent.oth n :: rest) = dirNames rest := by
          simp [dirNames, List.filter_cons, entName, isDirT]
        rw [hcons] at h1 h2
        simp only [scanLoop, entName, hs, Bool.false_eq_true, if_false]
        exact ih _ h1 h2
    · rw [dirNames_cons_skip hs] at h1 h2
      simp only [scanLoop, hs, if_true]
      exact ih _ h1 h2

theorem dirNames_replicate : ∀ (k : Nat),
    dirNames (List.replicate k (Ent.dirU "x")) = List.replicate k "x" := by
  intro k
  induction k with
  | zero => rfl
  | succ k ih =>
    have : dirNames (Ent.dirU "x" :: List.replicate k (Ent.dirU "x"))
        = "x" :: dirNames (List.replicate k (Ent.dirU "x")) := rfl
    simp [List.replicate_succ, this, ih]

end Gitree

namespace Gitree

/-! ### Delta characterisations of the non-recursive fragments -/

theorem pushChecking_delta (d : String) (st : St) :
    pushChecking d st = app st ⟨0, 0, 0, 0, [Line.checking d]⟩ := by
  cases st; simp [pushChecking, app]

theorem pushLayout_delta (d n : String) (st : St) :
    pushLayout d n st = app st ⟨1, 0, 0, 0, [Line.layout d n]⟩ := by
  cases st; simp [pushLayout, app]

theorem pushBadName_delta (d : String) (st : St) :
    pushBadName d st = app st ⟨0, 1, 0, 0, [Line.badName d]⟩ := by
  cases st; simp [pushBadName, app]

theorem pushNonBare_delta (d : String) (st : St) :
    pushNonBare d st = app st ⟨0, 0, 1, 0, [Line.nonBare d]⟩ := by
  cases st; simp [pushNonBare, app]

theorem pushStray_delta (d n : String) (st : St) :
    pushStray d n st = app st ⟨0, 0, 0, 1, [Line.stray d n]⟩ := by
  cases st; simp [pushStray, app]

theorem app_st0_left (b : St) : app st0 b = b := by
  cases b; simp [app, st0]

theorem layoutBad_cons_keep {e : Ent} {rest : List Ent}
    (hs : skipName (entName e) = false) (hm : git_files.contains (entName e) = false) :
    layoutBad (e :: rest) = entName e :: layoutBad rest := by
  have hp : (!skipName (entName e) && !git_files.contains (entName e)) = true := by
    rw [hs, hm]; rfl
  simp only [layoutBad, List.filter_cons, hp, if_true, List.map_cons]

theorem layoutBad_cons_skip {e : Ent} {rest : List Ent}
    (hs : skipName (entName e) = true) :
    layoutBad (e :: rest) = layoutBad rest := by
  have hp : (!skipName (entName e) && !git_files.contains (entName e)) = false := by
    rw [hs]; rfl
  simp only [layoutBad, List.filter_cons, hp, Bool.false_eq_true, if_false]

theorem layoutBad_cons_mem {e : Ent} {rest : List Ent}
    (hm : git_files.contains (entName e) = true) :
    layoutBad (e :: rest) = layoutBad rest := by
  have hp : (!skipName (entName e) && !git_files.contains (entName e)) = false := by
    rw [hm]; simp
  simp only [layoutBad, List.filter_cons, hp, Bool.false_eq_true, if_false]

theorem layoutPass_spec : ∀ (d : String) (l : List Ent) (st : St),
    layoutPass d l st =
      app st ⟨(layoutBad l).length, 0, 0, 0, (layoutBad l).map (Line.layout d)⟩ := by
  intro d l
  induction l with
  | nil =>
    intro st
    have : layoutBad ([] : List Ent) = [] := rfl
    rw [this]
    exact (app_st0_right st).symm
  | cons e rest ih =>
    intro st
    cases hs : skipName (entName e)
    · cases hm : git_files.contains (entName e)
      · rw [layoutBad_cons_keep hs hm]
        simp only [layoutPass, hs, hm, Bool.false_eq_true, if_false]
        rw [ih, pushLayout_delta, app_assoc]
        congr 1
        simp [app, Nat.add_comm]
      · rw [layoutBad_cons_mem hm]
        simp only [layoutPass, hs, hm, Bool.false_eq_true, if_false, if_true]
        exact ih st
    · rw [layoutBad_cons_skip hs]
      simp only [layoutPass, hs, if_true]
      exact ih st

theorem emitStrays_spec : ∀ (d : String) (fs : List String) (st : St),
    emitStrays d fs st =
      app st ⟨0, 0, 0, if in_exception_list d then 0 else fs.length,
              if in_exception_list d then [] else fs.map (Line.stray d)⟩ := by
  intro d fs
  induction fs with
  | nil =>
    intro st
    cases he : in_exception_list d <;>
      simpa [he] using (app_st0_right st).symm
  | cons f rest ih =>
    intro st
    cases he : in_exception_list d
    · simp only [emitStrays, he, Bool.false_eq_true, if_false]
      rw [ih, pushStray_delta, app_assoc]
      congr 1
      simp [app, he, Nat.add_comm]
    · simp only [emitStrays, he, if_true]
      rw [ih]
      simp [he]

theorem check_gitree_naming (d : String) (st : St) :
    (if !dirNameWithGit (lastDir d) then
        pushBadName d
          (if dirNameWithGit (lastDir d) && ((lastDir d).length == 4) then
            if in_exception_list d then st else pushNonBare d st
          else st)
      else
        if dirNameWithGit (lastDir d) && ((lastDir d).length == 4) then
          if in_exception_list d then st else pushNonBare d st
        else st) = app st (checkNamingDelta d) := by
  unfold checkNamingDelta
  cases hw : dirNameWithGit (lastDir d)
  · simp only [hw, Bool.not_false, if_true, Bool.false_and, Bool.false_eq_true,
      if_false]
    exact pushBadName_delta d st
  · cases hl : (lastDir d).length == 4
    · simp only [hw, hl, Bool.not_true, Bool.and_false, Bool.false_eq_true,
        if_false]
      exact (app_st0_right st).symm
    · cases he : in_exception_list d
      · simp only [hw, hl, Bool.not_true, Bool.and_self, Bool.false_eq_true,
          if_false, if_true, he]
        exact pushNonBare_delta d st
      · simp only [hw, hl, Bool.not_true, Bool.and_self, Bool.false_eq_true,
          if_false, if_true, he]
        exact (app_st0_right st).symm

theorem check_gitree_spec (d : String) (l : List Ent) (st : St) :
    check_gitree d l st =
      app st (app (checkNamingDelta d)
        ⟨(layoutBad l).length, 0, 0, 0, (layoutBad l).map (Line.layout d)⟩) := by
  show layoutPass d l _ = _
  rw [check_gitree_naming d st, layoutPass_spec, app_assoc]

/-! ### Small list helpers about line categories -/

theorem filter_false_of_mem {p : Line → Bool} : ∀ {l : List Line},
    (∀ a ∈ l, p a = false) → l.filter p = [] := by
  intro l
  induction l with
  | nil => intro _; rfl
  | cons x xs ih =>
    intro h
    simp only [List.filter_cons, h x (List.mem_cons_self _ _), Bool.false_eq_true,
      if_false]
    exact ih (fun a ha => h a (List.mem_cons_of_mem _ ha))

theorem filter_true_of_mem {p : Line → Bool} : ∀ {l : List Line},
    (∀ a ∈ l, p a = true) → l.filter p = l := by
  intro l
  induction l with
  | nil => intro _; rfl
  | cons x xs ih =>
    intro h
    simp only [List.filter_cons, h x (List.mem_cons_self _ _), if_true]
    rw [ih (fun a ha => h a (List.mem_cons_of_mem _ ha))]

theorem countP_eq_zero_of_mem {p : Line → Bool} {l : List Line}
    (h : ∀ a ∈ l, p a = false) : l.countP p = 0 := by
  rw [List.countP_eq_length_filter, filter_false_of_mem h]
  rfl

end Gitree

namespace Gitree

/-! ### Counters always equal the per-category line counts -/

theorem countersOK_st0 : countersOK st0 := by
  simp [countersOK, st0]

theorem countersOK_app {a b : St} (ha : countersOK a) (hb : countersOK b) :
    countersOK (app a b) := by
  obtain ⟨a1, a2, a3, a4⟩ := ha
  obtain ⟨b1, b2, b3, b4⟩ := hb
  refine ⟨?_, ?_, ?_, ?_⟩ <;>
    simp [app, List.countP_append, a1, a2, a3, a4, b1, b2, b3, b4]

theorem countP_map_const {α : Type} (f : α → Line) (p : Line → Bool) (b : Bool)
    (h : ∀ x, p (f x) = b) : ∀ xs : List α,
    (xs.map f).countP p = if b = true then xs.length else 0 := by
  intro xs
  induction xs with
  | nil => cases b <;> simp
  | cons x r ihr => cases b <;> simp_all [List.countP_cons, h, ihr]

theorem filter_map_const {α : Type} (f : α → Line) (p : Line → Bool) (b : Bool)
    (h : ∀ x, p (f x) = b) : ∀ xs : List α,
    (xs.map f).filter p = if b = true then xs.map f else [] := by
  intro xs
  induction xs with
  | nil => cases b <;> simp
  | cons x r ihr => cases b <;> simp_all [List.filter_cons, h, ihr]

theorem countersOK_layoutDelta (d : String) (xs : List String) :
    countersOK ⟨xs.length, 0, 0, 0, xs.map (Line.layout d)⟩ := by
  refine ⟨?_, ?_, ?_, ?_⟩
  · rw [show (⟨xs.length, 0, 0, 0, xs.map (Line.layout d)⟩ : St).out
        = xs.map (Line.layout d) from rfl,
      countP_map_const (Line.layout d) isLayoutLine true (fun x => rfl)]
    simp
  · rw [show (⟨xs.length, 0, 0, 0, xs.map (Line.layout d)⟩ : St).out
        = xs.map (Line.layout d) from rfl,
      countP_map_const (Line.layout d) isBadNameLine false (fun x => rfl)]
    simp
  · rw [show (⟨xs.length, 0, 0, 0, xs.map (Line.layout d)⟩ : St).out
        = xs.map (Line.layout d) from rfl,
      countP_map_const (Line.layout d) isNonBareLine false (fun x => rfl)]
    simp
  · rw [show (⟨xs.length, 0, 0, 0, xs.map (Line.layout d)⟩ : St).out
        = xs.map (Line.layout d) from rfl,
      countP_map_const (Line.layout d) isStrayLine false (fun x => rfl)]
    simp

theorem countersOK_strayDelta (d : String) (xs : List String) :
    countersOK ⟨0, 0, 0, xs.length, xs.map (Line.stray d)⟩ := by
  refine ⟨?_, ?_, ?_, ?_⟩
  · rw [show (⟨0, 0, 0, xs.length, xs.map (Line.stray d)⟩ : St).out
        = xs.map (Line.stray d) from rfl,
      countP_map_const (Line.stray d) isLayoutLine false (fun x => rfl)]
    simp
  · rw [show (⟨0, 0, 0, xs.length, xs.map (Line.stray d)⟩ : St).out
        = xs.map (Line.stray d) from rfl,
      countP_map_const (Line.stray d) isBadNameLine false (fun x => rfl)]
    simp
  · rw [show (⟨0, 0, 0, xs.length, xs.map (Line.stray d)⟩ : St).out
        = xs.map (Line.stray d) from rfl,
      countP_map_const (Line.stray d) isNonBareLine false (fun x => rfl)]
    simp
  · rw [show (⟨0, 0, 0, xs.length, xs.map (Line.stray d)⟩ : St).out
        = xs.map (Line.stray d) from rfl,
      countP_map_const (Line.stray d) isStrayLine true (fun x => rfl)]
    simp

theorem countersOK_namingDelta (d : String) : countersOK (checkNamingDelta d) := by
  unfold checkNamingDelta
  split
  · split
    · split
      · exact countersOK_st0
      · refine ⟨?_, ?_, ?_, ?_⟩ <;>
          simp [List.countP_cons, isLayoutLine, isBadNameLine, isNonBareLine,
            isStrayLine]
    · exact countersOK_st0
  · refine ⟨?_, ?_, ?_, ?_⟩ <;>
      simp [List.countP_cons, isLayoutLine, isBadNameLine, isNonBareLine,
        isStrayLine]

theorem countersOK_checkingDelta (d : String) :
    countersOK (⟨0, 0, 0, 0, [Line.checking d]⟩ : St) := by
  refine ⟨?_, ?_, ?_, ?_⟩ <;>
    simp [List.countP_cons, isLayoutLine, isBadNameLine, isNonBareLine,
      isStrayLine]

theorem countersOK_check (d : String) (l : List Ent) {st : St}
    (h : countersOK st) : countersOK (check_gitree d l st) := by
  rw [check_gitree_spec]
  exact countersOK_app h
    (countersOK_app (countersOK_namingDelta d) (countersOK_layoutDelta d _))

theorem countersOK_emit (d : String) (fs : List String) {st : St}
    (h : countersOK st) : countersOK (emitStrays d fs st) := by
  rw [emitStrays_spec]
  refine countersOK_app h ?_
  cases he : in_exception_list d
  · simpa [he] using countersOK_strayDelta d fs
  · simpa [he] using countersOK_st0

theorem countersOK_pushChecking (d : String) {st : St}
    (h : countersOK st) : countersOK (pushChecking d st) := by
  rw [pushChecking_delta]
  exact countersOK_app h (countersOK_checkingDelta d)

theorem walkF_inv (g : String → Option (List Ent) → St → Except GErr St)
    (hg : ∀ p c st st2, g p c st = .ok st2 → countersOK st → countersOK st2) :
    ∀ (d : String) (l : List Ent) (st st2 : St),
    walkF g d l st = .ok st2 → countersOK st → countersOK st2 := by
  intro d l
  induction l with
  | nil =>
    intro st st2 h hst
    simp only [walkF, Except.ok.injEq] at h
    subst h; exact hst
  | cons e rest ih =>
    intro st st2 h hst
    cases hs : skipName (entName e)
    · cases e with
      | dir n c =>
        simp only [entName] at hs
        simp only [walkF, entName, hs, Bool.false_eq_true, if_false] at h
        cases hgc : g (d ++ "/" ++ n) (some c) st with
        | error er => rw [hgc] at h; simp at h
        | ok stm =>
          rw [hgc] at h
          exact ih _ _ h (hg _ _ _ _ hgc hst)
      | dirU n =>
        simp only [entName] at hs
        simp only [walkF, entName, hs, Bool.false_eq_true, if_false] at h
        exact hg _ _ _ _ h hst
      | reg n =>
        simp only [entName] at hs
        simp only [walkF, entName, hs, Bool.false_eq_true, if_false] at h
        exact ih _ _ h hst
      | unk n =>
        simp only [entName] at hs
        simp only [walkF, entName, hs, Bool.false_eq_true, if_false] at h
        exact ih _ _ h hst
      | oth n =>
        simp only [entName] at hs
        simp only [walkF, entName, hs, Bool.false_eq_true, if_false] at h
        exact ih _ _ h hst
    · simp only [walkF, hs, if_true] at h
      exact ih _ _ h hst

theorem gitreeF_inv : ∀ (n : Nat) (d : String) (c : Option (List Ent)) (st st2 : St),
    gitreeF n d c st = .ok st2 → countersOK st → countersOK st2 := by
  intro n
  induction n with
  | zero => intro d c st st2 h; cases h
  | succ n ih =>
    intro d c st st2 h hst
    cases c with
    | none => cases h
    | some l =>
      simp only [gitreeF] at h
      cases hs : scanLoop l emptyAcc with
      | error e => rw [hs] at h; simp at h
      | ok acc =>
        rw [hs] at h
        cases hr : (acc.hasObjects && acc.hasRefs && acc.hasHEAD)
        · simp only [hr, Bool.false_eq_true, if_false] at h
          exact walkF_inv (gitreeF n) (fun p c st st2 hh => ih p c st st2 hh)
            d l _ _ h (countersOK_emit d acc.files (countersOK_pushChecking d hst))
        · simp only [hr, if_true, Except.ok.injEq] at h
          subst h
          exact countersOK_check d l (countersOK_pushChecking d hst)

theorem gitree_inv {d : String} {c : Option (List Ent)} {st2 : St}
    (h : gitree d c st0 = .ok st2) : countersOK st2 := by
  cases c with
  | none => cases h
  | some l => exact gitreeF_inv _ d (some l) st0 st2 h countersOK_st0

end Gitree

namespace Gitree

/-! ### Splitting a run from an arbitrary state into the fresh-state delta -/

theorem gitree_ok_split {d : String} {c : Option (List Ent)} {st st2 : St}
    (h : gitree d c st = .ok st2) :
    ∃ δ, gitree d c st0 = .ok δ ∧ st2 = app st δ := by
  have hfr := gitree_app d c st st0
  rw [app_st0_right] at hfr
  rw [hfr] at h
  cases hδ : gitree d c st0 with
  | error e => rw [hδ] at h; simp [Except.map] at h
  | ok δ =>
    rw [hδ] at h
    simp only [Except.map, Except.ok.injEq] at h
    exact ⟨δ, rfl, h.symm⟩

theorem walkF_ok_split {d : String} {l : List Ent} {X st2 : St}
    (h : walkF gitree d l X = .ok st2) :
    ∃ δ, walkF gitree d l st0 = .ok δ ∧ st2 = app X δ := by
  have hfr := walkF_app gitree (fun p c a b => gitree_app p c a b) d l X st0
  rw [app_st0_right] at hfr
  rw [hfr] at h
  cases hδ : walkF gitree d l st0 with
  | error e => rw [hδ] at h; simp [Except.map] at h
  | ok δ =>
    rw [hδ] at h
    simp only [Except.map, Except.ok.injEq] at h
    exact ⟨δ, rfl, h.symm⟩

/-! ### What lines the non-recursive `check_gitree` step can emit -/

theorem checkDelta_out_mem {d : String} {l : List Ent} {a : Line}
    (h : a ∈ (app (checkNamingDelta d)
      ⟨(layoutBad l).length, 0, 0, 0, (layoutBad l).map (Line.layout d)⟩).out) :
    a = Line.badName d ∨ a = Line.nonBare d ∨ ∃ n, a = Line.layout d n := by
  have h2 : a ∈ (checkNamingDelta d).out ∨ a ∈ (layoutBad l).map (Line.layout d) := by
    simpa [app] using h
  rcases h2 with h2 | h2
  · unfold checkNamingDelta at h2
    split at h2
    · split at h2
      · split at h2
        · simp [st0] at h2
        · simp at h2; exact Or.inr (Or.inl h2)
      · simp [st0] at h2
    · simp at h2; exact Or.inl h2
  · rcases List.mem_map.1 h2 with ⟨n, _, rfl⟩
    exact Or.inr (Or.inr ⟨n, rfl⟩)

theorem check_gitree_out (d : String) (l : List Ent) (st : St) :
    ∀ a ∈ (check_gitree d l st).out, a ∈ st.out ∨ a = Line.badName d ∨
      a = Line.nonBare d ∨ ∃ n, a = Line.layout d n := by
  intro a ha
  rw [check_gitree_spec] at ha
  have : a ∈ st.out ∨ a ∈ (app (checkNamingDelta d)
      ⟨(layoutBad l).length, 0, 0, 0, (layoutBad l).map (Line.layout d)⟩).out := by
    simpa [app] using ha
  rcases this with h | h
  · exact Or.inl h
  · exact Or.inr (checkDelta_out_mem h)

/-! ### Where stray warnings can point: never inside a classified root,
and always at the directory being visited or deeper -/

theorem emit_out (d : String) (fs : List String) (st : St) :
    (emitStrays d fs (pushChecking d st)).out =
      st.out ++ [Line.checking d] ++
        (if in_exception_list d then [] else fs.map (Line.stray d)) := by
  rw [emitStrays_spec, pushChecking_delta, app_assoc]
  cases he : in_exception_list d <;> simp [he, app]

theorem length_path (d n : String) : (d ++ "/" ++ n).length = d.length + 1 + n.length := by
  have h1 : ("/" : String).length = 1 := rfl
  simp [String.length_append, h1]

theorem walkF_stray (g : String → Option (List Ent) → St → Except GErr St)
    (hg : ∀ p c st st2, g p c st = .ok st2 → ∀ q x, Line.stray q x ∈ st2.out →
      Line.stray q x ∈ st.out ∨ p.length ≤ q.length) :
    ∀ (d : String) (l : List Ent) (st st2 : St),
    walkF g d l st = .ok st2 → ∀ q x, Line.stray q x ∈ st2.out →
    Line.stray q x ∈ st.out ∨ d.length < q.length := by
  intro d l
  induction l with
  | nil =>
    intro st st2 h q x hm
    simp only [walkF, Except.ok.injEq] at h
    subst h; exact Or.inl hm
  | cons e rest ih =>
    intro st st2 h q x hm
    cases hs : skipName (entName e)
    · cases e with
      | dir n c =>
        simp only [entName] at hs
        simp only [walkF, entName, hs, Bool.false_eq_true, if_false] at h
        cases hgc : g (d ++ "/" ++ n) (some c) st with
        | error er => rw [hgc] at h; simp at h
        | ok stm =>
          rw [hgc] at h
          rcases ih _ _ h q x hm with hin | hlen
          · rcases hg _ _ _ _ hgc q x hin with hin2 | hlen2
            · exact Or.inl hin2
            · right; rw [length_path] at hlen2; omega
          · exact Or.inr hlen
      | dirU n =>
        simp only [entName] at hs
        simp only [walkF, entName, hs, Bool.false_eq_true, if_false] at h
        rcases hg _ _ _ _ h q x hm with hin | hlen
        · exact Or.inl hin
        · right; rw [length_path] at hlen; omega
      | reg n =>
        simp only [entName] at hs
        simp only [walkF, entName, hs, Bool.false_eq_true, if_false] at h
        exact ih _ _ h q x hm
      | unk n =>
        simp only [entName] at hs
        simp only [walkF, entName, hs, Bool.false_eq_true, if_false] at h
        exact ih _ _ h q x hm
      | oth n =>
        simp only [entName] at hs
        simp only [walkF, entName, hs, Bool.false_eq_true, if_false] at h
        exact ih _ _ h q x hm
    · simp only [walkF, hs, if_true] at h
      exact ih _ _ h q x hm

theorem gitreeF_stray : ∀ (n : Nat) (d : String) (c : Option (List Ent)) (st st2 : St),
    gitreeF n d c st = .ok st2 → ∀ q x, Line.stray q x ∈ st2.out →
    Line.stray q x ∈ st.out ∨ d.length ≤ q.length := by
  intro n
  induction n with
  | zero => intro d c st st2 h; cases h
  | succ n ih =>
    intro d c st st2 h q x hm
    cases c with
    | none => cases h
    | some l =>
      simp only [gitreeF] at h
      cases hs : scanLoop l emptyAcc with
      | error e => rw [hs] at h; simp at h
      | ok acc =>
        rw [hs] at h
        cases hr : (acc.hasObjects && acc.hasRefs && acc.hasHEAD)
        · simp only [hr, Bool.false_eq_true, if_false] at h
          rcases walkF_stray (gitreeF n) (fun p c st st2 hh => ih p c st st2 hh)
            d l _ _ h q x hm with hin | hlen
          · rw [emit_out] at hin
            rcases List.mem_append.1 hin with hin2 | hin2
            · rcases List.mem_append.1 hin2 with hin3 | hin3
              · exact Or.inl hin3
              · simp at hin3
            · split at hin2
              · simp at hin2
              · rcases List.mem_map.1 hin2 with ⟨f, _, heq⟩
                cases heq
                right; rfl
          · right; omega
        · simp only [hr, if_true, Except.ok.injEq] at h
          subst h
          rcases check_gitree_out d l (pushChecking d st) _ hm with hin | hb | hb | hb
          · rw [pushChecking_delta] at hin
            rcases List.mem_append.1 hin with hin2 | hin2
            · exact Or.inl hin2
            · simp at hin2
          · cases hb
          · cases hb
          · rcases hb with ⟨m, hb⟩; cases hb

theorem gitree_stray {d : String} {c : Option (List Ent)} {st st2 : St}
    (h : gitree d c st = .ok st2) : ∀ q x, Line.stray q x ∈ st2.out →
    Line.stray q x ∈ st.out ∨ d.length ≤ q.length := by
  cases c with
  | none => cases h
  | some l => exact gitreeF_stray _ d (some l) st st2 h

/-! ### Every recursive visit prints its own Checking banner -/

theorem gitree_starts_checking {d : String} {l : List Ent} {st st2 : St}
    (h : gitree d (some l) st = .ok st2) : Line.checking d ∈ st2.out := by
  rw [gitree_eq] at h
  cases hs : scanLoop l emptyAcc with
  | error e => rw [hs] at h; simp at h
  | ok acc =>
    rw [hs] at h
    cases hr : (acc.hasObjects && acc.hasRefs && acc.hasHEAD)
    · simp only [hr, Bool.false_eq_true, if_false] at h
      rcases walkF_ok_split h with ⟨δ, _, rfl⟩
      have : Line.checking d ∈ (emitStrays d acc.files (pushChecking d st)).out := by
        rw [emit_out]; simp
      simp [app, this]
    · simp only [hr, if_true, Except.ok.injEq] at h
      subst h
      rw [check_gitree_spec, pushChecking_delta]
      simp [app]

theorem walkF_visits : ∀ (l : List Ent) (d : String) (st st2 : St),
    walkF gitree d l st = .ok st2 → ∀ nm c, Ent.dir nm c ∈ l → skipName nm = false →
    Line.checking (d ++ "/" ++ nm) ∈ st2.out := by
  intro l
  induction l with
  | nil => intro d st st2 h nm c hmem; cases hmem
  | cons e rest ih =>
    intro d st st2 h nm c hmem hskip
    rcases List.mem_cons.1 hmem with heq | hmem2
    · subst heq
      simp only [walkF, entName, hskip, Bool.false_eq_true, if_false] at h
      cases hgc : gitree (d ++ "/" ++ nm) (some c) st with
      | error er => rw [hgc] at h; simp at h
      | ok stm =>
        rw [hgc] at h
        have hc := gitree_starts_checking hgc
        rcases walkF_ok_split h with ⟨δ, _, rfl⟩
        simp [app, hc]
    · cases hs : skipName (entName e)
      · cases e with
        | dir n2 c2 =>
          simp only [entName] at hs
          simp only [walkF, entName, hs, Bool.false_eq_true, if_false] at h
          cases hgc : gitree (d ++ "/" ++ n2) (some c2) st with
          | error er => rw [hgc] at h; simp at h
          | ok stm =>
            rw [hgc] at h
            exact ih _ _ _ h nm c hmem2 hskip
        | dirU n2 =>
          simp only [entName] at hs
          simp only [walkF, entName, hs, Bool.false_eq_true, if_false] at h
          rw [gitree_none] at h
          cases h
        | reg n2 =>
          simp only [entName] at hs
          simp only [walkF, entName, hs, Bool.false_eq_true, if_false] at h
          exact ih _ _ _ h nm c hmem2 hskip
        | unk n2 =>
          simp only [entName] at hs
          simp only [walkF, entName, hs, Bool.false_eq_true, if_false] at h
          exact ih _ _ _ h nm c hmem2 hskip
        | oth n2 =>
          simp only [entName] at hs
          simp only [walkF, entName, hs, Bool.false_eq_true, if_false] at h
          exact ih _ _ _ h nm c hmem2 hskip
      · simp only [walkF, hs, if_true] at h
        exact ih _ _ _ h nm c hmem2 hskip

end Gitree

namespace Gitree

/-! ### Bridges between the scan flags and the content signature -/

theorem scan_root_flag {l : List Ent} {acc : ScanAcc}
    (h : scanLoop l emptyAcc = .ok acc) :
    (acc.hasObjects && acc.hasRefs && acc.hasHEAD) = isGitRoot l := by
  obtain ⟨_, _, h3, h4, h5⟩ := scanLoop_ok_spec l _ _ h
  simp only [h3, h4, h5, emptyAcc, Bool.false_or]
  rfl

theorem scan_files {l : List Ent} {acc : ScanAcc}
    (h : scanLoop l emptyAcc = .ok acc) : acc.files = regNames l := by
  obtain ⟨_, h2, _, _, _⟩ := scanLoop_ok_spec l _ _ h
  simpa [emptyAcc] using h2

theorem namingDelta_cases (d : String) :
    checkNamingDelta d = st0 ∨ checkNamingDelta d = ⟨0, 0, 1, 0, [Line.nonBare d]⟩ ∨
    checkNamingDelta d = ⟨0, 1, 0, 0, [Line.badName d]⟩ := by
  unfold checkNamingDelta
  split
  · split
    · split
      · exact Or.inl rfl
      · exact Or.inr (Or.inl rfl)
    · exact Or.inl rfl
  · exact Or.inr (Or.inr rfl)

theorem string_ext {s t : String} (h : s.data = t.data) : s = t := by
  cases s; cases t; exact congrArg String.mk h

theorem layoutBad_cons (e : Ent) (r : List Ent) :
    layoutBad (e :: r) =
      (if (!skipName (entName e) && !git_files.contains (entName e)) = true
        then [entName e] else []) ++ layoutBad r := by
  simp only [layoutBad, List.filter_cons]
  split
  · simp
  · simp

theorem layoutBad_names : ∀ (l l2 : List Ent),
    l.map entName = l2.map entName → layoutBad l = layoutBad l2 := by
  intro l
  induction l with
  | nil =>
    intro l2 h
    have : l2 = [] := by
      cases l2 with
      | nil => rfl
      | cons x xs => simp at h
    subst this; rfl
  | cons e r ih =>
    intro l2 h
    cases l2 with
    | nil => simp at h
    | cons e2 r2 =>
      simp only [List.map_cons, List.cons.injEq] at h
      obtain ⟨h1, h2⟩ := h
      rw [layoutBad_cons, layoutBad_cons, h1, ih r2 h2]

/-! ### An entry of a type other than DT_DIR/DT_REG/DT_UNKNOWN is invisible
to the scan and to the recursion -/

theorem scanLoop_oth : ∀ (l1 : List Ent) (x : String) (l2 : List Ent) (a : ScanAcc),
    scanLoop (l1 ++ Ent.oth x :: l2) a = scanLoop (l1 ++ l2) a := by
  intro l1 x
  induction l1 with
  | nil =>
    intro l2 a
    simp only [List.nil_append]
    cases hs : skipName x
    · simp only [scanLoop, entName, hs, Bool.false_eq_true, if_false]
    · simp only [scanLoop, entName, hs, if_true]
  | cons e r ih =>
    intro l2 a
    simp only [List.cons_append]
    cases hs : skipName (entName e)
    · cases e with
      | dir n c =>
        simp only [entName] at hs
        simp only [scanLoop, entName, hs, Bool.false_eq_true, if_false]
        split
        · rfl
        · exact ih l2 _
      | dirU n =>
        simp only [entName] at hs
        simp only [scanLoop, entName, hs, Bool.false_eq_true, if_false]
        split
        · rfl
        · exact ih l2 _
      | reg n =>
        simp only [entName] at hs
        simp only [scanLoop, entName, hs, Bool.false_eq_true, if_false]
        split
        · rfl
        · exact ih l2 _
      | unk n =>
        simp only [entName] at hs
        simp only [scanLoop, entName, hs, Bool.false_eq_true, if_false]
      | oth n =>
        simp only [entName] at hs
        simp only [scanLoop, entName, hs, Bool.false_eq_true, if_false]
        exact ih l2 a
    · simp only [scanLoop, hs, if_true]
      exact ih l2 a

theorem walkF_oth (g : String → Option (List Ent) → St → Except GErr St) :
    ∀ (l1 : List Ent) (x : String) (l2 : List Ent) (d : String) (st : St),
    walkF g d (l1 ++ Ent.oth x :: l2) st = walkF g d (l1 ++ l2) st := by
  intro l1 x
  induction l1 with
  | nil =>
    intro l2 d st
    simp only [List.nil_append]
    cases hs : skipName x
    · simp only [walkF, entName, hs, Bool.false_eq_true, if_false]
    · simp only [walkF, entName, hs, if_true]
  | cons e r ih =>
    intro l2 d st
    simp only [List.cons_append]
    cases hs : skipName (entName e)
    · cases e with
      | dir n c =>
        simp only [entName] at hs
        simp only [walkF, entName, hs, Bool.false_eq_true, if_false]
        cases g (d ++ "/" ++ n) (some c) st
        · rfl
        · exact ih l2 d _
      | dirU n =>
        simp only [entName] at hs
        simp only [walkF, entName, hs, Bool.false_eq_true, if_false]
      | reg n =>
        simp only [entName] at hs
        simp only [walkF, entName, hs, Bool.false_eq_true, if_false]
        exact ih l2 d st
      | unk n =>
        simp only [entName] at hs
        simp only [walkF, entName, hs, Bool.false_eq_true, if_false]
        exact ih l2 d st
      | oth n =>
        simp only [entName] at hs
        simp only [walkF, entName, hs, Bool.false_eq_true, if_false]
        exact ih l2 d st
    · simp only [walkF, hs, if_true]
      exact ih l2 d st

end Gitree

namespace Gitree

/-! ### The claims -/

/-- C1, counterexample: a directory whose immediate children are the two
marker subdirectories `objects` and `refs` but no regular file `HEAD` is
NOT classified as a repository root by `gitree.c`: the walker recurses into
both children (their own `Checking` banners appear) and never runs the
naming/layout checks on the directory. -/
theorem claim1_counterexample :
    hasDirNamed [Ent.dir "objects" [], Ent.dir "refs" []] "objects" = true ∧
    hasDirNamed [Ent.dir "objects" [], Ent.dir "refs" []] "refs" = true ∧
    isGitRoot [Ent.dir "objects" [], Ent.dir "refs" []] = false ∧
    gitree "r" (some [Ent.dir "objects" [], Ent.dir "refs" []]) st0 =
      .ok ⟨0, 0, 0, 0, [Line.checking "r", Line.checking "r/objects",
        Line.checking "r/refs"]⟩ :=
  ⟨rfl, rfl, rfl, rfl⟩

/-- C1 (amended): for every directory whose scan completes without a fatal
condition and whose immediate children include directory children `objects`
and `refs` AND a regular-file child `HEAD`, the walker classifies the
directory as a repository root: it runs `check_gitree` on it and returns
without recursing into any child — the visit's whole output contains
exactly one `Checking` banner, the directory's own. -/
theorem claim1_amended (d : String) (l : List Ent) (acc : ScanAcc) (st : St)
    (hscan : scanLoop l emptyAcc = .ok acc) (hroot : isGitRoot l = true) :
    gitree d (some l) st = .ok (check_gitree d l (pushChecking d st)) ∧
    (check_gitree d l (pushChecking d st0)).out.countP isCheckingLine = 1 := by
  constructor
  · rw [gitree_eq]
    rw [hscan]
    simp only [scan_root_flag hscan, hroot, if_true]
  · rw [check_gitree_spec, pushChecking_delta]
    have hz : ∀ a ∈ (app (checkNamingDelta d)
        ⟨(layoutBad l).length, 0, 0, 0, (layoutBad l).map (Line.layout d)⟩).out,
        isCheckingLine a = false := by
      intro a ha
      rcases checkDelta_out_mem ha with rfl | rfl | ⟨n, rfl⟩ <;> rfl
    rw [show (app (app st0 ⟨0, 0, 0, 0, [Line.checking d]⟩)
        (app (checkNamingDelta d)
          ⟨(layoutBad l).length, 0, 0, 0, (layoutBad l).map (Line.layout d)⟩)).out
      = [Line.checking d] ++ (app (checkNamingDelta d)
          ⟨(layoutBad l).length, 0, 0, 0, (layoutBad l).map (Line.layout d)⟩).out
      from by simp [app, st0]]
    rw [List.countP_append, countP_eq_zero_of_mem hz]
    rfl

/-- C1 witness: the amended claim at a concrete bare root. -/
theorem claim1_witness :
    gitree "p.git" (some [Ent.dir "objects" [], Ent.dir "refs" [], Ent.reg "HEAD"]) st0 =
      .ok (check_gitree "p.git" [Ent.dir "objects" [], Ent.dir "refs" [], Ent.reg "HEAD"]
        (pushChecking "p.git" st0)) ∧
    (check_gitree "p.git" [Ent.dir "objects" [], Ent.dir "refs" [], Ent.reg "HEAD"]
      (pushChecking "p.git" st0)).out.countP isCheckingLine = 1 :=
  claim1_amended "p.git" [Ent.dir "objects" [], Ent.dir "refs" [], Ent.reg "HEAD"]
    ⟨["objects", "refs"], ["HEAD"], true, true, true⟩ st0 rfl rfl

/-- C2, counterexample: `sub.git` ends with the reserved suffix and is
longer than it, its parent `top` is not a repository root — yet `gitree.c`
does NOT classify/check `sub.git` directly by name: it generically recurses
into it (the `Checking top/sub.git` banner appears) and, since `sub.git`
has no content signature, even reports the file inside it as a stray,
which the claimed by-name handling (steps 2-3) could never do. -/
theorem claim2_counterexample :
    strEndsWith "sub.git" ".git" = true ∧ 4 < "sub.git".length ∧
    isGitRoot [Ent.dir "sub.git" [Ent.reg "junk"]] = false ∧
    gitree "top" (some [Ent.dir "sub.git" [Ent.reg "junk"]]) st0 =
      .ok ⟨0, 0, 0, 1, [Line.checking "top", Line.checking "top/sub.git",
        Line.stray "top/sub.git" "junk"]⟩ :=
  ⟨rfl, by decide, rfl, rfl⟩

/-- C2 (amended): in `gitree.c` there is no by-name shortcut at all: for
every directory that is not a repository root, EVERY directory child
(whether or not its basename ends with `.git`) is entered via generic
recursion — a completed walk contains the child's own `Checking` banner. -/
theorem claim2_amended (d : String) (l : List Ent) (st st2 : St)
    (nm : String) (c : List Ent)
    (hroot : isGitRoot l = false) (hrun : gitree d (some l) st = .ok st2)
    (hmem : Ent.dir nm c ∈ l) (hskip : skipName nm = false) :
    Line.checking (d ++ "/" ++ nm) ∈ st2.out := by
  rw [gitree_eq] at hrun
  cases hs : scanLoop l emptyAcc with
  | error e => rw [hs] at hrun; simp at hrun
  | ok acc =>
    rw [hs] at hrun
    simp only [scan_root_flag hs, hroot, Bool.false_eq_true, if_false] at hrun
    exact walkF_visits l d _ _ hrun nm c hmem hskip

/-- C2 witness: the amended claim at the counterexample tree. -/
theorem claim2_witness :
    Line.checking ("top" ++ "/" ++ "sub.git") ∈
      (⟨0, 0, 0, 1, [Line.checking "top", Line.checking "top/sub.git",
        Line.stray "top/sub.git" "junk"]⟩ : St).out :=
  claim2_amended "top" [Ent.dir "sub.git" [Ent.reg "junk"]] st0
    ⟨0, 0, 0, 1, [Line.checking "top", Line.checking "top/sub.git",
      Line.stray "top/sub.git" "junk"]⟩
    "sub.git" [Ent.reg "junk"] rfl rfl (List.mem_cons_self _ _) rfl

/-- C3, counterexample: `/git/android/.repo` matches the Exception
Registry (it is literally the one `exception_list` entry), is a confirmed
repository root, and its basename does not end in `.git` — yet `gitree.c`
emits the bad-name-suffix warning and increments the counter anyway: the
exception list is not consulted for this warning category. -/
theorem claim3_counterexample :
    in_exception_list "/git/android/.repo" = true ∧
    isGitRoot [Ent.dir "objects" [], Ent.dir "refs" [], Ent.reg "HEAD"] = true ∧
    strEndsWith (lastDir "/git/android/.repo") ".git" = false ∧
    gitree "/git/android/.repo"
      (some [Ent.dir "objects" [], Ent.dir "refs" [], Ent.reg "HEAD"]) st0 =
      .ok ⟨0, 1, 0, 0, [Line.checking "/git/android/.repo",
        Line.badName "/git/android/.repo"]⟩ :=
  ⟨rfl, rfl, rfl, rfl⟩

/-- C3 (amended): for every checked directory whose basename does not end
with `.git`, `check_gitree` emits exactly one bad-name-suffix warning and
increments the bad-name counter by one UNCONDITIONALLY — the Exception
Registry is not consulted for this category (it only guards the non-bare
warning and the stray-file warning). -/
theorem claim3_amended (d : String) (l : List Ent) (st : St)
    (h : dirNameWithGit (lastDir d) = false) :
    (check_gitree d l st).nBadName = st.nBadName + 1 ∧
    (check_gitree d l st).out.filter isBadNameLine =
      st.out.filter isBadNameLine ++ [Line.badName d] := by
  rw [check_gitree_spec]
  have hδ : checkNamingDelta d = ⟨0, 1, 0, 0, [Line.badName d]⟩ := by
    unfold checkNamingDelta
    rw [h]
    simp
  rw [hδ]
  constructor
  · simp [app]
  · rw [show (app st (app (⟨0, 1, 0, 0, [Line.badName d]⟩ : St)
        ⟨(layoutBad l).length, 0, 0, 0, (layoutBad l).map (Line.layout d)⟩)).out
      = st.out ++ ([Line.badName d] ++ (layoutBad l).map (Line.layout d))
      from by simp [app]]
    rw [List.filter_append, List.filter_append,
      filter_map_const (Line.layout d) isBadNameLine false (fun x => rfl)]
    simp [isBadNameLine]

/-- C3 witness: the amended claim at a concrete badly named directory. -/
theorem claim3_witness :
    (check_gitree "repo1" [] st0).nBadName = st0.nBadName + 1 ∧
    (check_gitree "repo1" [] st0).out.filter isBadNameLine =
      st0.out.filter isBadNameLine ++ [Line.badName "repo1"] :=
  claim3_amended "repo1" [] st0 rfl

end Gitree

namespace Gitree

/-- C4: for every checked repository root, the layout pass warns exactly
once, with one counter increment, for each immediate child (of any type,
`.`/`..` excluded) whose basename is absent from the `git_files` marker
set, compared case-sensitively by exact match; children whose basename is
in the set yield no layout warning; and the check depends only on the
children's basenames — a child's own contents or type are never inspected. -/
theorem claim4_layout_check (d : String) (l : List Ent) (st : St) :
    (check_gitree d l st).out.filter isLayoutLine =
      st.out.filter isLayoutLine ++ (layoutBad l).map (Line.layout d) ∧
    (check_gitree d l st).nLayout = st.nLayout + (layoutBad l).length ∧
    (∀ l2 : List Ent, l.map entName = l2.map entName →
      check_gitree d l st = check_gitree d l2 st) := by
  refine ⟨?_, ?_, ?_⟩
  · rw [check_gitree_spec]
    have hnm : (checkNamingDelta d).out.filter isLayoutLine = [] := by
      rcases namingDelta_cases d with hδ | hδ | hδ <;> rw [hδ] <;> rfl
    rw [show (app st (app (checkNamingDelta d)
        ⟨(layoutBad l).length, 0, 0, 0, (layoutBad l).map (Line.layout d)⟩)).out
      = st.out ++ ((checkNamingDelta d).out ++ (layoutBad l).map (Line.layout d))
      from by simp [app]]
    rw [List.filter_append, List.filter_append, hnm,
      filter_map_const (Line.layout d) isLayoutLine true (fun x => rfl)]
    simp
  · rw [check_gitree_spec]
    have hnm : (checkNamingDelta d).nLayout = 0 := by
      rcases namingDelta_cases d with hδ | hδ | hδ <;> simp [hδ, st0]
    simp [app, hnm]
  · intro l2 hmap
    rw [check_gitree_spec, check_gitree_spec, layoutBad_names l l2 hmap]

/-- C4 witness: the claim at a concrete root listing, including the
contents/type blindness of the check (same basenames, different types and
contents, same result). -/
theorem claim4_witness :
    ((check_gitree "w" [Ent.dir "objects" [], Ent.reg "xx"] st0).out.filter isLayoutLine =
      st0.out.filter isLayoutLine ++
        (layoutBad [Ent.dir "objects" [], Ent.reg "xx"]).map (Line.layout "w")) ∧
    ((check_gitree "w" [Ent.dir "objects" [], Ent.reg "xx"] st0).nLayout =
      st0.nLayout + (layoutBad [Ent.dir "objects" [], Ent.reg "xx"]).length) ∧
    check_gitree "w" [Ent.dir "objects" [], Ent.reg "xx"] st0 =
      check_gitree "w" [Ent.dirU "objects", Ent.oth "xx"] st0 :=
  ⟨(claim4_layout_check "w" [Ent.dir "objects" [], Ent.reg "xx"] st0).1,
   (claim4_layout_check "w" [Ent.dir "objects" [], Ent.reg "xx"] st0).2.1,
   (claim4_layout_check "w" [Ent.dir "objects" [], Ent.reg "xx"] st0).2.2
     [Ent.dirU "objects", Ent.oth "xx"] rfl⟩

/-- C5: in a completed walk of a non-root directory, the stray-file
warnings attributed to that directory are exactly one per immediate
regular-file child, in listing order — or none at all when the directory
path matches the Exception Registry — and the stray counter always equals
the number of stray warnings emitted; and a completed walk of a classified
repository root emits no stray-file warning at all (no file anywhere
beneath the root is ever reported stray, since the walker never descends
past the root). -/
theorem claim5_stray_reporting :
    (∀ (d : String) (l : List Ent) (st2 : St),
      isGitRoot l = false → gitree d (some l) st0 = .ok st2 →
      st2.out.filter (isStrayAt d) =
        (if in_exception_list d then [] else (regNames l).map (Line.stray d)) ∧
      st2.nStray = st2.out.countP isStrayLine) ∧
    (∀ (d : String) (l : List Ent) (st2 : St),
      isGitRoot l = true → gitree d (some l) st0 = .ok st2 →
      st2.out.filter isStrayLine = []) := by
  constructor
  · intro d l st2 hroot hrun
    refine ⟨?_, (gitree_inv hrun).2.2.2⟩
    rw [gitree_eq] at hrun
    cases hs : scanLoop l emptyAcc with
    | error e => rw [hs] at hrun; simp at hrun
    | ok acc =>
      rw [hs] at hrun
      simp only [scan_root_flag hs, hroot, Bool.false_eq_true, if_false] at hrun
      rcases walkF_ok_split hrun with ⟨δ, hδ, rfl⟩
      have hST1 : (emitStrays d acc.files (pushChecking d st0)).out.filter (isStrayAt d) =
          (if in_exception_list d then [] else acc.files.map (Line.stray d)) := by
        rw [emit_out]
        cases he : in_exception_list d
        · simp only [he, Bool.false_eq_true, if_false]
          rw [List.filter_append, List.filter_append,
            filter_map_const (Line.stray d) (isStrayAt d) true
              (fun x => by simp [isStrayAt])]
          simp [st0, isStrayAt]
        · simp [he, st0, List.filter_append, isStrayAt]
      have hδstray : δ.out.filter (isStrayAt d) = [] := by
        apply filter_false_of_mem
        intro a ha
        cases a with
        | stray q x =>
          rcases walkF_stray gitree (fun p c st st2 hh => gitree_stray hh)
            d l st0 δ hδ q x ha with hin | hlen
          · simp [st0] at hin
          · have hne : q ≠ d := by
              intro hqd
              subst hqd
              omega
            simpa [isStrayAt] using hne
        | checking p => rfl
        | layout p nn => rfl
        | badName p => rfl
        | nonBare p => rfl
      rw [show (app (emitStrays d acc.files (pushChecking d st0)) δ).out
          = (emitStrays d acc.files (pushChecking d st0)).out ++ δ.out from rfl]
      rw [List.filter_append, hST1, hδstray, scan_files hs]
      simp
  · intro d l st2 hroot hrun
    rw [gitree_eq] at hrun
    cases hs : scanLoop l emptyAcc with
    | error e => rw [hs] at hrun; simp at hrun
    | ok acc =>
      rw [hs] at hrun
      simp only [scan_root_flag hs, hroot, if_true, Except.ok.injEq] at hrun
      subst hrun
      apply filter_false_of_mem
      intro a ha
      rcases check_gitree_out d l _ a ha with hin | rfl | rfl | ⟨n, rfl⟩
      · have : a ∈ [Line.checking d] := by
          rw [show (pushChecking d st0).out = [Line.checking d] from rfl] at hin
          exact hin
        simp at this
        subst this
        rfl
      · rfl
      · rfl
      · rfl

/-- C5 witness: one stray warning, one counter increment for the single
regular file of a non-root directory; no stray warning in the walk of a
classified bare root. -/
theorem claim5_witness :
    ((⟨0, 0, 0, 1, [Line.checking "w", Line.stray "w" "a.txt"]⟩ : St).out.filter
        (isStrayAt "w") =
      (if in_exception_list "w" then [] else
        (regNames [Ent.reg "a.txt"]).map (Line.stray "w")) ∧
      (⟨0, 0, 0, 1, [Line.checking "w", Line.stray "w" "a.txt"]⟩ : St).nStray =
        (⟨0, 0, 0, 1, [Line.checking "w", Line.stray "w" "a.txt"]⟩ : St).out.countP
          isStrayLine) ∧
    (⟨0, 0, 0, 0, [Line.checking "b.git"]⟩ : St).out.filter isStrayLine = [] :=
  ⟨claim5_stray_reporting.1 "w" [Ent.reg "a.txt"]
      ⟨0, 0, 0, 1, [Line.checking "w", Line.stray "w" "a.txt"]⟩ rfl rfl,
   claim5_stray_reporting.2 "b.git"
      [Ent.dir "objects" [], Ent.dir "refs" [], Ent.reg "HEAD"]
      ⟨0, 0, 0, 0, [Line.checking "b.git"]⟩ rfl rfl⟩

/-- C6: the three naming outcomes of `check_gitree` — basename exactly
`.git` (non-bare), basename not ending in `.git` (bad name), basename
properly extending `.git` (well named) — are mutually exclusive and
exhaustive: exactly one of them holds for every path; the first outcome is
exactly "basename = .git"; and one `check_gitree` visit emits at most one
naming warning. -/
theorem claim6_naming_trichotomy (d : String) (l : List Ent) (st : St) :
    ((if gitNameA d then 1 else 0) + (if gitNameB d then 1 else 0) +
      (if gitNameExt d then 1 else 0) = 1) ∧
    gitNameA d = (lastDir d == ".git") ∧
    (check_gitree d l st).out.countP isNamingLine ≤
      st.out.countP isNamingLine + 1 := by
  refine ⟨?_, ?_, ?_⟩
  · unfold gitNameA gitNameB gitNameExt
    cases hw : dirNameWithGit (lastDir d) <;>
      cases hl : ((lastDir d).length == 4) <;> simp
  · unfold gitNameA
    cases hq : lastDir d == ".git"
    · have hne : lastDir d ≠ ".git" := by simpa using hq
      cases hw : dirNameWithGit (lastDir d)
      · simp
      · cases hl : ((lastDir d).length == 4)
        · simp
        · exfalso
          apply hne
          have hsuf : (".git".data) <:+ (lastDir d).data := by
            have hsw : strEndsWith (lastDir d) ".git" = true := by
              unfold dirNameWithGit at hw
              simp only [Bool.and_eq_true] at hw
              exact hw.2
            simpa [strEndsWith, List.isSuffixOf_iff_suffix] using hsw
          have hlen : (lastDir d).length = 4 := by simpa using hl
          have hll : (".git".data).length = ((lastDir d).data).length := by
            have hdl : ((lastDir d).data).length = 4 := hlen
            rw [hdl]
            rfl
          exact (string_ext (List.IsSuffix.eq_of_length hsuf hll)).symm
    · have heq : lastDir d = ".git" := by simpa using hq
      rw [heq]
      rfl
  · rw [check_gitree_spec]
    have hl0 : ((layoutBad l).map (Line.layout d)).countP isNamingLine = 0 := by
      rw [countP_map_const (Line.layout d) isNamingLine false (fun x => rfl)]
      simp
    rcases namingDelta_cases d with hδ | hδ | hδ <;> rw [hδ] <;>
      simp [app, List.countP_append, st0, List.countP_cons, isNamingLine, hl0]

/-- C7: a run that completes the whole walk exits with status 0 no matter
how many warnings were emitted; a run aborted because a directory could
not be opened exits with -1; a run aborted by an entry of indeterminate
type exits with -2; and 0, -1, -2 are pairwise distinct. -/
theorem claim7_exit_codes (d : String) (c : Option (List Ent)) :
    ((∃ st2, gitree d c st0 = .ok st2) ↔ runGitree d c = 0) ∧
    (gitree d c st0 = .error .openFail → runGitree d c = -1) ∧
    (gitree d c st0 = .error .unknownType → runGitree d c = -2) ∧
    (-1 : Int) ≠ 0 ∧ (-2 : Int) ≠ 0 ∧ (-2 : Int) ≠ -1 := by
  refine ⟨⟨?_, ?_⟩, ?_, ?_, by decide, by decide, by decide⟩
  · rintro ⟨st2, h⟩
    simp [runGitree, h]
  · intro h0
    unfold runGitree at h0
    cases hg : gitree d c st0 with
    | ok st2 => exact ⟨st2, rfl⟩
    | error e =>
      rw [hg] at h0
      exfalso
      cases e <;> simp [exitCode] at h0
  · intro h
    simp [runGitree, h, exitCode]
  · intro h
    simp [runGitree, h, exitCode]

/-- C7 witness: a completed warning-free walk and a completed walk with a
stray warning both exit 0; an unopenable root exits -1; an indeterminate
entry exits -2. -/
theorem claim7_witness :
    runGitree "x" (some []) = 0 ∧
    runGitree "top" (some [Ent.dir "sub.git" [Ent.reg "junk"]]) = 0 ∧
    runGitree "x" none = -1 ∧
    runGitree "x" (some [Ent.unk "z"]) = -2 :=
  ⟨(claim7_exit_codes "x" (some [])).1.1 ⟨⟨0, 0, 0, 0, [Line.checking "x"]⟩, rfl⟩,
   (claim7_exit_codes "top" (some [Ent.dir "sub.git" [Ent.reg "junk"]])).1.1
     ⟨⟨0, 0, 0, 1, [Line.checking "top", Line.checking "top/sub.git",
       Line.stray "top/sub.git" "junk"]⟩, rfl⟩,
   (claim7_exit_codes "x" none).2.1 rfl,
   (claim7_exit_codes "x" (some [Ent.unk "z"])).2.2.1 rfl⟩

end Gitree

namespace Gitree

/-- C8: per directory visit, the scan stores each kind of child in a
4096-slot buffer: a successful scan stores EVERY directory child and EVERY
regular-file child (no silent truncation) and both stored lists are
strictly below the 4096 capacity, so every buffer write lands in range;
a failed scan aborts the enclosing walk entirely; and a listing with 4096
directory children is fatal (it reaches the bound) rather than truncated. -/
theorem claim8_capacity :
    (∀ (l : List Ent) (acc : ScanAcc), scanLoop l emptyAcc = .ok acc →
      acc.dirs = dirNames l ∧ acc.files = regNames l ∧
      acc.dirs.length < 4096 ∧ acc.files.length < 4096) ∧
    (∀ (d : String) (l : List Ent) (st : St),
      isErr (scanLoop l emptyAcc) = true → isErr (gitree d (some l) st) = true) ∧
    isErr (scanLoop (List.replicate 4096 (Ent.dirU "x")) emptyAcc) = true := by
  refine ⟨?_, ?_, ?_⟩
  · intro l acc h
    obtain ⟨h1, h2, _, _, _⟩ := scanLoop_ok_spec l _ _ h
    obtain ⟨h3, h4⟩ := scanLoop_ok_lt l _ _ h (by simp [emptyAcc]) (by simp [emptyAcc])
    exact ⟨by simpa [emptyAcc] using h1, by simpa [emptyAcc] using h2, h3, h4⟩
  · intro d l st herr
    rw [gitree_eq]
    cases hs : scanLoop l emptyAcc with
    | error e => rfl
    | ok acc => rw [hs] at herr; simp [isErr] at herr
  · apply scanLoop_overflow
    · rw [dirNames_replicate, List.length_replicate]
      have h0 : emptyAcc.dirs.length = 0 := rfl
      omega
    · rw [dirNames_replicate, List.length_replicate]
      omega

/-- C8 witness: a small successful scan stores exactly its children; a
fatal scan (here an indeterminate entry) aborts the walk. -/
theorem claim8_witness :
    ((⟨["a"], ["b"], false, false, false⟩ : ScanAcc).dirs =
        dirNames [Ent.dir "a" [], Ent.reg "b"] ∧
      (⟨["a"], ["b"], false, false, false⟩ : ScanAcc).files =
        regNames [Ent.dir "a" [], Ent.reg "b"] ∧
      (⟨["a"], ["b"], false, false, false⟩ : ScanAcc).dirs.length < 4096 ∧
      (⟨["a"], ["b"], false, false, false⟩ : ScanAcc).files.length < 4096) ∧
    isErr (gitree "d" (some [Ent.unk "z"]) st0) = true :=
  ⟨claim8_capacity.1 [Ent.dir "a" [], Ent.reg "b"]
      ⟨["a"], ["b"], false, false, false⟩ rfl,
   claim8_capacity.2.1 "d" [Ent.unk "z"] st0 rfl⟩

/-- C9: the walker's effect is a pure delta of the tree alone: a run from
any pre-state equals the run from the fresh state with the pre-state's
counters added and its output prepended. In particular two runs over the
same unmodified tree (identical listings in identical order at every node)
produce identical warning records in identical relative order and
identical final per-category counts — the walk reads nothing but the tree. -/
theorem claim9_deterministic_delta (d : String) (c : Option (List Ent)) (st : St) :
    gitree d c st = (gitree d c st0).map (app st) := by
  have h := gitree_app d c st st0
  rwa [app_st0_right] at h

/-- C10: a child entry whose `d_type` is neither directory, nor regular
file, nor `DT_UNKNOWN` (a symlink, FIFO, socket, ...) is silently skipped
by the walker of a non-root directory: deleting it from the listing does
not change the run at all (it is not recursed into, not reported stray,
not fatal); yet the layout check of a classified root examines every
entry name regardless of the entry's type — replacing an entry by one of a
different type with the same basename leaves `check_gitree` unchanged. -/
theorem claim10_other_types :
    (∀ (d x : String) (l1 l2 : List Ent) (st : St),
      isGitRoot (l1 ++ l2) = false →
      gitree d (some (l1 ++ Ent.oth x :: l2)) st = gitree d (some (l1 ++ l2)) st) ∧
    (∀ (d : String) (l1 l2 : List Ent) (e e2 : Ent) (st : St),
      entName e = entName e2 →
      check_gitree d (l1 ++ e :: l2) st = check_gitree d (l1 ++ e2 :: l2) st) := by
  constructor
  · intro d x l1 l2 st hroot
    rw [gitree_eq, gitree_eq, scanLoop_oth]
    cases hs : scanLoop (l1 ++ l2) emptyAcc with
    | error e => rfl
    | ok acc =>
      simp only [scan_root_flag hs, hroot, Bool.false_eq_true, if_false]
      exact walkF_oth gitree l1 x l2 d _
  · intro d l1 l2 e e2 st hname
    rw [check_gitree_spec, check_gitree_spec,
      layoutBad_names (l1 ++ e :: l2) (l1 ++ e2 :: l2) (by simp [hname])]

/-- C10 witness: dropping a symlink-like child from a non-root listing
changes nothing; swapping an entry's type inside a checked root changes
nothing. -/
theorem claim10_witness :
    gitree "w" (some ([Ent.reg "f"] ++ Ent.oth "lnk" :: [])) st0 =
      gitree "w" (some ([Ent.reg "f"] ++ [])) st0 ∧
    check_gitree "w" ([] ++ Ent.dir "n" [] :: []) st0 =
      check_gitree "w" ([] ++ Ent.oth "n" :: []) st0 :=
  ⟨claim10_other_types.1 "w" "lnk" [Ent.reg "f"] [] st0 rfl,
   claim10_other_types.2 "w" [] [] (Ent.dir "n" []) (Ent.oth "n") st0 rfl⟩

end Gitree
